import Mathlib

/-!
Shallow embedding of the gibberish-detection core (`src/train.ts` and the
public entry points re-exported from it).  JavaScript strings are modelled
as `List Char` (code-point sequences, matching `[...str]` iteration), and
JavaScript numbers as `JNum`, a rational extended with `NaN` and the two
infinities, which is enough to express every numeric behaviour the core
exercises (division by a zero pair count, `Math.min()` / `Math.max()` on
empty argument lists, and NaN-propagating comparison).

Unicode NFD decomposition (used by `convertToLatinEquivalent` through
`String.prototype.normalize('NFD')`) is a platform library, not repository
code; the development is parameterised by a decomposition map
`nfd : Char → List Char`, and theorems that depend on its behaviour assume
only `NfdAsciiFixed nfd` — the true fact that characters in the ASCII range
are NFD-inert.  `nfdInert` instantiates the parameter for concrete
evaluations on inputs whose characters real NFD leaves unchanged.
-/

/-- JavaScript number restricted to the values the core can produce:
a finite rational, `NaN`, `+Infinity` or `-Infinity`. -/
inductive JNum where
  | nan : JNum
  | posInf : JNum
  | negInf : JNum
  | fin : ℚ → JNum
deriving DecidableEq

namespace JNum

/-- JavaScript addition on `JNum` (NaN absorbs; opposite infinities give NaN). -/
def add : JNum → JNum → JNum
  | .nan, _ => .nan
  | _, .nan => .nan
  | .posInf, .negInf => .nan
  | .negInf, .posInf => .nan
  | .posInf, _ => .posInf
  | _, .posInf => .posInf
  | .negInf, _ => .negInf
  | _, .negInf => .negInf
  | .fin a, .fin b => .fin (a + b)

/-- JavaScript division of a `JNum` by a natural-number literal
(`x / 0` is `NaN` at zero, `±Infinity` at a nonzero finite numerator). -/
def divNat : JNum → Nat → JNum
  | .nan, _ => .nan
  | .posInf, _ => .posInf
  | .negInf, _ => .negInf
  | .fin q, 0 => if 0 < q then .posInf else if q < 0 then .negInf else .nan
  | .fin q, (n + 1) => .fin (q / (n + 1))

/-- The two-argument core of `Math.min`: NaN-propagating minimum. -/
def min2 : JNum → JNum → JNum
  | .nan, _ => .nan
  | _, .nan => .nan
  | .negInf, _ => .negInf
  | _, .negInf => .negInf
  | .posInf, b => b
  | a, .posInf => a
  | .fin a, .fin b => .fin (min a b)

/-- The two-argument core of `Math.max`: NaN-propagating maximum. -/
def max2 : JNum → JNum → JNum
  | .nan, _ => .nan
  | _, .nan => .nan
  | .posInf, _ => .posInf
  | _, .posInf => .posInf
  | .negInf, b => b
  | a, .negInf => a
  | .fin a, .fin b => .fin (max a b)

/-- The JavaScript comparison `a <= b`: false whenever either side is NaN. -/
def le : JNum → JNum → Bool
  | .nan, _ => false
  | _, .nan => false
  | .negInf, _ => true
  | _, .negInf => false
  | _, .posInf => true
  | .posInf, _ => false
  | .fin a, .fin b => decide (a ≤ b)

end JNum

/-- `Math.min(...scores)`: fold of `min2` starting from `+Infinity`
(the value of `Math.min()` with no arguments). -/
def jsMinList (l : List JNum) : JNum := l.foldl JNum.min2 .posInf

/-- `Math.max(...scores)`: fold of `max2` starting from `-Infinity`. -/
def jsMaxList (l : List JNum) : JNum := l.foldl JNum.max2 .negInf

/-- `scores.reduce((a, b) => a + b, 0)`. -/
def jsSumList (l : List JNum) : JNum := l.foldl JNum.add (.fin 0)

/-- The character class `\s` of JavaScript regular expressions (also the set
stripped by `String.prototype.trim`): tab, LF, VT, FF, CR, space, NBSP,
Ogham space mark, the U+2000–U+200A spaces, LS, PS, NNBSP, MMSP,
ideographic space and BOM. -/
def isJsWS (c : Char) : Bool :=
  let n := c.toNat
  n == 9 || n == 10 || n == 11 || n == 12 || n == 13 || n == 32 ||
  n == 0xa0 || n == 0x1680 || (decide (0x2000 ≤ n) && decide (n ≤ 0x200a)) ||
  n == 0x2028 || n == 0x2029 || n == 0x202f || n == 0x205f || n == 0x3000 ||
  n == 0xfeff

/-- `sample.split('\r\n').join(' ')`: replace each CRLF pair (leftmost,
non-overlapping) by a single space. -/
def replaceCRLF : List Char → List Char
  | [] => []
  | [c] => [c]
  | c1 :: c2 :: rest =>
    if c1 = '\r' ∧ c2 = '\n' then ' ' :: replaceCRLF rest
    else c1 :: replaceCRLF (c2 :: rest)

/-- `sample.split('\n').join(' ')` (a single-character pattern, hence a map). -/
def replaceLF (l : List Char) : List Char :=
  l.map fun c => if c = '\n' then ' ' else c

/-- `sample.split('\t').join(' ')`. -/
def replaceTab (l : List Char) : List Char :=
  l.map fun c => if c = '\t' then ' ' else c

/-- `sample.replace(/[!?.;]/g, ' ')`: the sentence-terminator step. -/
def replaceSentenceTerminators (l : List Char) : List Char :=
  l.map fun c => if c = '!' ∨ c = '?' ∨ c = '.' ∨ c = ';' then ' ' else c

/-- Worker for `collapseWS`; the flag records whether the previous character
belonged to a whitespace run whose single replacement space was already
emitted. -/
def collapseWSAux : Bool → List Char → List Char
  | _, [] => []
  | inRun, c :: rest =>
    if isJsWS c then
      if inRun then collapseWSAux true rest
      else ' ' :: collapseWSAux true rest
    else c :: collapseWSAux false rest

/-- `sample.replace(/\s+/g, ' ')`: each maximal whitespace run becomes one
space. -/
def collapseWS (l : List Char) : List Char := collapseWSAux false l

/-- `NfdAsciiFixed nfd` states that the decomposition map fixes the ASCII
range, as Unicode NFD does. -/
def NfdAsciiFixed (nfd : Char → List Char) : Prop :=
  ∀ c : Char, c.toNat ≤ 127 → nfd c = [c]

/-- A decomposition map that fixes every character; it agrees with Unicode
NFD on NFD-inert characters (all of ASCII, and e.g. a Greek capital omega),
and is used to instantiate `nfd`-parameterised theorems at concrete inputs
made of such characters. -/
def nfdInert : Char → List Char := fun c => [c]

/-- `convertToLatinEquivalent`: NFD-decompose, strip the combining marks
U+0300–U+036F, then drop every character outside the ASCII range. -/
def convertToLatinEquivalent (nfd : Char → List Char) (inputString : List Char) :
    List Char :=
  let normalizedString :=
    ((inputString.map nfd).flatten).filter
      fun c => !(decide (0x300 ≤ c.toNat) && decide (c.toNat ≤ 0x36F))
  normalizedString.filter fun c => decide (c.toNat ≤ 127)

/-- `sanitizeText`: line breaks, tabs and sentence terminators to spaces,
whitespace runs collapsed, then Latin normalization. -/
def sanitizeText (nfd : Char → List Char) (sample : List Char) : List Char :=
  let s1 := replaceCRLF sample
  let s2 := replaceLF s1
  let s3 := replaceTab s2
  let s4 := replaceSentenceTerminators s3
  let s5 := collapseWS s4
  convertToLatinEquivalent nfd s5

/-- `str.toLowerCase()`; the core only lowercases sanitizer output, which is
pure ASCII, where JavaScript case folding is the per-character ASCII map. -/
def jsToLower (l : List Char) : List Char := l.map Char.toLower

/-- `str.trim()`: strip `\s` characters from both ends. -/
def jsTrim (l : List Char) : List Char :=
  ((l.dropWhile isJsWS).reverse.dropWhile isJsWS).reverse

/-- One `(x, y)` entry of the frequency table (`XYPair` in `types/model.ts`):
a bigram key and its count. -/
structure XYPair where
  x : List Char
  y : ℚ
deriving DecidableEq

/-- Aggregate statistics over the per-line scores of a reference set
(the value of `scoreLines`). -/
structure BaselineStats where
  min : JNum
  max : JNum
  avg : JNum
deriving DecidableEq

/-- The `baseline` field of a model. -/
structure Baseline where
  good : BaselineStats
  bad : BaselineStats
deriving DecidableEq

/-- The training model: frequency matrix plus good/bad baselines. -/
structure Model where
  matrix : List XYPair
  baseline : Baseline
deriving DecidableEq

/-- The adjacent 2-character windows of a character list, in order; the
training and scoring loops (`for x ...; if (!split[x+1]) break`) walk
exactly these windows. -/
def extractPairs : List Char → List (List Char)
  | c1 :: c2 :: rest => [c1, c2] :: extractPairs (c2 :: rest)
  | _ => []

/-- One iteration of the training loop on the `analysis` list: increment the
count of an already-discovered bigram in place, or append a fresh entry with
count 1 (the `analysisCache` record makes the cache hit exactly "key already
present in `analysis`", which this association-list update mirrors). -/
def bumpPair (key : List Char) : List XYPair → List XYPair
  | [] => [⟨key, 1⟩]
  | p :: rest => if p.x = key then ⟨p.x, p.y + 1⟩ :: rest else p :: bumpPair key rest

/-- The sort comparator `(a, b) => b.y - a.y`: `a` may precede `b` exactly
when `a.y ≥ b.y`, i.e. descending by count. -/
def byCountDesc (a b : XYPair) : Bool := decide (b.y ≤ a.y)

/-- The bigram-extraction phase of `train`: fold the windows of the
lowercased sanitized corpus through `bumpPair`, then sort descending by
count. -/
def buildMatrix (split : List Char) : List XYPair :=
  ((extractPairs split).foldl (fun acc k => bumpPair k acc) []).mergeSort byCountDesc

/-- The `goodLines` / `badLines` parameter of `train`: either a pre-split
array of lines or a single newline-delimited string. -/
inductive Lines where
  | arr : List (List Char) → Lines
  | str : List Char → Lines

/-- `if (!Array.isArray(lines)) lines = lines.split('\n').map((x) => x.trim())`. -/
def Lines.toArray : Lines → List (List Char)
  | .arr ls => ls
  | .str s => (s.splitOn '\n').map jsTrim

/-- `convertJSONMatrixIntoMap` as the lookup function of the resulting
`Map`: repeated `set` calls make the last entry with a given key win. -/
def convertJSONMatrixIntoMap (jsonArray : List XYPair) : List Char → Option ℚ :=
  fun k => jsonArray.foldl (fun acc p => if p.x = k then some p.y else acc) none

/-- Mutable state of the scoring loop: the per-call memoization `Map` and
the running total. -/
structure LoopState where
  cache : List (List Char × ℚ)
  total : ℚ

/-- One iteration of the scoring loop of `assignScore` at bigram `k`:
consult the cache (when enabled), else the matrix map, filling the cache on
a hit; a truthy find (a nonzero count) is added to the running total. -/
def scoreStep (mmap : List Char → Option ℚ) (useCache : Bool)
    (st : LoopState) (k : List Char) : LoopState :=
  match (if useCache then st.cache.lookup k else none) with
  | some v => { st with total := if v ≠ 0 then st.total + v else st.total }
  | none =>
    match mmap k with
    | some v =>
      { cache := if useCache then (k, v) :: st.cache else st.cache,
        total := if v ≠ 0 then st.total + v else st.total }
    | none => st

/-- `assignScore`: sanitize, collapse residual line breaks, lowercase, walk
the adjacent windows accumulating table hits, and return the average hit
value per window — `NaN` (0/0) when there is no window. -/
def assignScore (nfd : Char → List Char) (test : List Char)
    (matrix : List XYPair) (useCache : Bool) : JNum :=
  let sanitized := sanitizeText nfd test
  let test2 := replaceLF sanitized
  let split := jsToLower test2
  let pairs := extractPairs split
  let st := pairs.foldl (scoreStep (convertJSONMatrixIntoMap matrix) useCache) ⟨[], 0⟩
  match pairs.length with
  | 0 => .nan
  | n + 1 => .fin (st.total / (n + 1))

/-- `scoreLines`: score each trimmed line (cache enabled, the default), then
aggregate with `Math.min`, `Math.max` and the mean. -/
def scoreLines (nfd : Char → List Char) (lines : List (List Char))
    (matrix : List XYPair) : BaselineStats :=
  let scores := lines.map fun line => assignScore nfd (jsTrim line) matrix true
  { min := jsMinList scores
    max := jsMaxList scores
    avg := (jsSumList scores).divNat scores.length }

/-- `train`: sanitize and lowercase the corpus, build the sorted frequency
matrix, split string-form line sets, and calibrate both baselines. -/
def train (nfd : Char → List Char) (sample : List Char)
    (goodLines badLines : Lines) : Model :=
  let sanitized := sanitizeText nfd sample
  let split := jsToLower sanitized
  let analysis := buildMatrix split
  { matrix := analysis
    baseline :=
      { good := scoreLines nfd goodLines.toArray analysis
        bad := scoreLines nfd badLines.toArray analysis } }

/-- `calculateThreshold`: the midpoint of `baseline.good.min` and
`baseline.bad.max`. -/
def calculateThreshold (model : Model) : JNum :=
  (model.baseline.good.min.add model.baseline.bad.max).divNat 2

/-- `testGibberish`: score the text against the model's matrix and compare
(JavaScript `<=`) with the pluggable threshold, defaulting to
`calculateThreshold`. -/
def testGibberish (nfd : Char → List Char) (test : List Char) (model : Model)
    (thresholdFn : Option (Model → JNum)) (useCache : Bool) : Bool :=
  let tf := thresholdFn.getD calculateThreshold
  let score := assignScore nfd test model.matrix useCache
  let threshold := tf model
  score.le threshold

/-- `getGibberishScore`: the raw score against the model's matrix. -/
def getGibberishScore (nfd : Char → List Char) (test : List Char)
    (model : Model) (useCache : Bool) : JNum :=
  assignScore nfd test model.matrix useCache

/-! ### Helper lemmas -/

theorem extractPairs_eq_nil_of_short (l : List Char) (h : l.length < 2) :
    extractPairs l = [] := by
  match l with
  | [] => rfl
  | [c] => rfl
  | c1 :: c2 :: rest => simp at h; omega

theorem JNum.le_nan_left (x : JNum) : JNum.le .nan x = false := by
  cases x <;> rfl

/-! ### Claims -/

/-- C1: for every text and model, `testGibberish` with the default threshold
function returns true exactly when `assignScore` of the text against the
model's matrix is `<=` (JavaScript comparison) the midpoint
`(model.baseline.good.min + model.baseline.bad.max) / 2`. -/
theorem testGibberish_default_threshold (nfd : Char → List Char)
    (text : List Char) (model : Model) :
    testGibberish nfd text model none true = true ↔
      (assignScore nfd text model.matrix true).le
        ((model.baseline.good.min.add model.baseline.bad.max).divNat 2) = true :=
  Iff.rfl

/-- C9: the sentence-terminator step of the sanitizer is position-wise: it
maps exactly `!`, `?`, `.`, `;` to a space, leaves every other character —
in particular the colon — unchanged, and preserves length. -/
theorem replaceSentenceTerminators_spec (l : List Char) (i : Nat) :
    (replaceSentenceTerminators l).length = l.length ∧
    (∀ c : Char, l[i]? = some c →
      (replaceSentenceTerminators l)[i]? =
        some (if c = '!' ∨ c = '?' ∨ c = '.' ∨ c = ';' then ' ' else c)) ∧
    (l[i]? = some ':' → (replaceSentenceTerminators l)[i]? = some ':') := by
  refine ⟨by simp [replaceSentenceTerminators], ?_, ?_⟩
  · intro c hc
    simp [replaceSentenceTerminators, List.getElem?_map, hc]
  · intro hc
    simp [replaceSentenceTerminators, List.getElem?_map, hc]

/-- Witness for C9 at a concrete string: in `"!:"` the bang becomes a space
and the colon passes through. -/
theorem replaceSentenceTerminators_spec_witness :
    (replaceSentenceTerminators ['!', ':'])[0]? = some ' ' ∧
    (replaceSentenceTerminators ['!', ':'])[1]? = some ':' := by
  constructor
  · have h := (replaceSentenceTerminators_spec ['!', ':'] 0).2.1 '!' rfl
    simpa using h
  · exact (replaceSentenceTerminators_spec ['!', ':'] 1).2.2 rfl

/-- Shared lemma: a text that sanitizes to fewer than two characters yields
a zero pair count, hence a `NaN` score and a false classification. -/
theorem short_text_score_nan (nfd : Char → List Char) (text : List Char)
    (h : (sanitizeText nfd text).length < 2) :
    (∀ (matrix : List XYPair) (useCache : Bool),
        assignScore nfd text matrix useCache = .nan) ∧
    (∀ (model : Model) (thresholdFn : Option (Model → JNum)) (useCache : Bool),
        testGibberish nfd text model thresholdFn useCache = false) := by
  have hpairs : ∀ (l : List Char), l = sanitizeText nfd text →
      extractPairs (jsToLower (replaceLF l)) = [] := by
    intro l hl
    apply extractPairs_eq_nil_of_short
    simp [jsToLower, replaceLF, hl, h]
  have hscore : ∀ (matrix : List XYPair) (useCache : Bool),
      assignScore nfd text matrix useCache = .nan := by
    intro matrix useCache
    simp only [assignScore]
    rw [hpairs _ rfl]
    rfl
  refine ⟨hscore, ?_⟩
  intro model thresholdFn useCache
  unfold testGibberish
  rw [hscore model.matrix useCache]
  exact JNum.le_nan_left _

/-- C2: a text with fewer than two characters after sanitization yields a
zero pair count, so `assignScore` returns `NaN` for every matrix and cache
setting, and `testGibberish` returns false for every model, threshold
function and cache setting (a NaN comparison is always false). -/
theorem assignScore_nan_of_short (nfd : Char → List Char) (text : List Char)
    (h : (sanitizeText nfd text).length < 2) :
    (∀ (matrix : List XYPair) (useCache : Bool),
        assignScore nfd text matrix useCache = .nan) ∧
    (∀ (model : Model) (thresholdFn : Option (Model → JNum)) (useCache : Bool),
        testGibberish nfd text model thresholdFn useCache = false) :=
  short_text_score_nan nfd text h

/-- Witness for C2: the one-character text `"a"` sanitizes to a single
character, scores `NaN` against the empty matrix, and is not classified as
gibberish by any model. -/
theorem assignScore_nan_of_short_witness :
    (sanitizeText nfdInert ['a']).length < 2 ∧
    assignScore nfdInert ['a'] [] true = .nan ∧
    testGibberish nfdInert ['a']
      ⟨[], ⟨⟨.fin 0, .fin 0, .fin 0⟩, ⟨.fin 0, .fin 0, .fin 0⟩⟩⟩ none true = false := by
  have h : (sanitizeText nfdInert ['a']).length < 2 := by decide
  exact ⟨h, (assignScore_nan_of_short nfdInert ['a'] h).1 [] true,
    (assignScore_nan_of_short nfdInert ['a'] h).2 _ none true⟩

/-- C5 (counterexample): on an empty line set `scoreLines` does not fail:
it silently returns baseline statistics whose `avg` is `NaN` (together with
`min = +Infinity` and `max = -Infinity`, the empty-reduction values of
`Math.min` and `Math.max`). -/
theorem scoreLines_empty_counterexample :
    (scoreLines nfdInert [] []).avg = .nan ∧
    scoreLines nfdInert [] [] = ⟨.posInf, .negInf, .nan⟩ := by
  constructor <;> rfl

/-- C5 (amended): applied to an empty sequence of lines, `scoreLines` does
not raise; it returns `min = +Infinity`, `max = -Infinity` and `avg = NaN`
(so the baseline silently contains a NaN instead of failing fast). -/
theorem scoreLines_empty (nfd : Char → List Char) (matrix : List XYPair) :
    scoreLines nfd [] matrix = ⟨.posInf, .negInf, .nan⟩ := rfl

theorem lookup_sound {mmap : List Char → Option ℚ}
    {cache : List (List Char × ℚ)}
    (hs : ∀ p ∈ cache, mmap p.1 = some p.2) {k : List Char} {v : ℚ}
    (hl : cache.lookup k = some v) : mmap k = some v := by
  induction cache with
  | nil => simp [List.lookup] at hl
  | cons hd tl ih =>
    simp only [List.lookup] at hl
    by_cases hk : k = hd.1
    · simp [hk] at hl
      subst hl
      simpa [hk] using hs hd (by simp)
    · have hne : (k == hd.1) = false := by simp [hk]
      rw [hne] at hl
      exact ih (fun p hp => hs p (List.mem_cons_of_mem _ hp)) hl

/-- The scoring fold computes the same running total with and without the
memoization cache, provided every cache entry agrees with the matrix map —
which the loop maintains, since entries are only inserted on map hits. -/
theorem scoreStep_cache_equiv (mmap : List Char → Option ℚ) :
    ∀ (pairs : List (List Char)) (st : LoopState) (t : ℚ),
      st.total = t → (∀ p ∈ st.cache, mmap p.1 = some p.2) →
      (pairs.foldl (scoreStep mmap true) st).total =
      (pairs.foldl (scoreStep mmap false) ⟨[], t⟩).total := by
  intro pairs
  induction pairs with
  | nil => intro st t ht _; simpa using ht
  | cons k rest ih =>
    intro st t ht hs
    simp only [List.foldl_cons]
    have hfalse : scoreStep mmap false ⟨[], t⟩ k =
        ⟨[], match mmap k with
             | some v => if v ≠ 0 then t + v else t
             | none => t⟩ := by
      simp only [scoreStep, if_neg (by simp : ¬ (false = true))]
      cases mmap k <;> simp
    cases hcl : st.cache.lookup k with
    | some v =>
      have hmk : mmap k = some v := lookup_sound hs hcl
      have htrue : scoreStep mmap true st k =
          { st with total := if v ≠ 0 then st.total + v else st.total } := by
        simp [scoreStep, hcl]
      rw [htrue, hfalse, hmk]
      exact ih _ _ (by simp [ht]) hs
    | none =>
      cases hmk : mmap k with
      | some v =>
        have htrue : scoreStep mmap true st k =
            ⟨(k, v) :: st.cache, if v ≠ 0 then st.total + v else st.total⟩ := by
          simp [scoreStep, hcl, hmk]
        rw [htrue, hfalse, hmk]
        refine ih _ _ (by simp [ht]) ?_
        intro p hp
        rcases List.mem_cons.mp hp with h | h
        · rw [h]; exact hmk
        · exact hs p h
      | none =>
        have htrue : scoreStep mmap true st k = st := by
          simp [scoreStep, hcl, hmk]
        rw [htrue, hfalse, hmk]
        exact ih _ _ ht hs

/-- C8: the per-call memoization cache is purely a performance knob —
`assignScore` returns the same value with the cache enabled and disabled,
for every text and matrix. -/
theorem assignScore_cache_equiv (nfd : Char → List Char) (test : List Char)
    (matrix : List XYPair) :
    assignScore nfd test matrix true = assignScore nfd test matrix false := by
  simp only [assignScore]
  have htot := scoreStep_cache_equiv (convertJSONMatrixIntoMap matrix)
    (extractPairs (jsToLower (replaceLF (sanitizeText nfd test))))
    ⟨[], 0⟩ 0 rfl (by simp)
  cases hl : (extractPairs (jsToLower (replaceLF (sanitizeText nfd test)))).length with
  | zero => rfl
  | succ n => rw [htot]

theorem extractPairs_length : ∀ l : List Char, (extractPairs l).length = l.length - 1
  | [] => rfl
  | [_] => rfl
  | c1 :: c2 :: rest => by
    simp only [extractPairs, List.length_cons, extractPairs_length (c2 :: rest)]
    omega

theorem bumpPair_sumY (k : List Char) (m : List XYPair) :
    ((bumpPair k m).map XYPair.y).sum = (m.map XYPair.y).sum + 1 := by
  induction m with
  | nil => simp [bumpPair]
  | cons p rest ih =>
    by_cases h : p.x = k
    · simp only [bumpPair, if_pos h, List.map_cons, List.sum_cons]
      ring
    · simp only [bumpPair, if_neg h, List.map_cons, List.sum_cons, ih]
      ring

theorem foldl_bump_sumY (ps : List (List Char)) :
    ∀ m : List XYPair,
      ((ps.foldl (fun acc k => bumpPair k acc) m).map XYPair.y).sum =
        (m.map XYPair.y).sum + ps.length := by
  induction ps with
  | nil => intro m; simp
  | cons k rest ih =>
    intro m
    simp only [List.foldl_cons, ih (bumpPair k m), bumpPair_sumY,
      List.length_cons]
    push_cast
    ring

/-- C6: bigram count conservation — the counts in the matrix produced by
`train` sum to `max (L - 1) 0`, where `L` is the length of the sanitized,
lowercased corpus (every adjacent window contributes exactly one increment,
and sorting permutes the entries without changing the sum). -/
theorem train_bigram_count_conservation (nfd : Char → List Char)
    (corpus : List Char) (goodLines badLines : Lines) :
    (((train nfd corpus goodLines badLines).matrix.map XYPair.y).sum) =
      ((max ((jsToLower (sanitizeText nfd corpus)).length - 1) 0 : ℕ) : ℚ) := by
  have hm : (train nfd corpus goodLines badLines).matrix =
      buildMatrix (jsToLower (sanitizeText nfd corpus)) := rfl
  rw [hm]
  unfold buildMatrix
  have hperm :=
    (List.mergeSort_perm
      ((extractPairs (jsToLower (sanitizeText nfd corpus))).foldl
        (fun acc k => bumpPair k acc) []) byCountDesc).map XYPair.y
  rw [hperm.sum_eq, foldl_bump_sumY, extractPairs_length]
  simp

theorem bumpPair_keys (k : List Char) (m : List XYPair) :
    (bumpPair k m).map XYPair.x =
      if k ∈ m.map XYPair.x then m.map XYPair.x else m.map XYPair.x ++ [k] := by
  induction m with
  | nil => simp [bumpPair]
  | cons p rest ih =>
    by_cases h : p.x = k
    · simp [bumpPair, h]
    · have hne : k ≠ p.x := fun hk => h hk.symm
      by_cases hk : k ∈ rest.map XYPair.x
      · simp [bumpPair, h, ih, hk, hne]
      · simp [bumpPair, h, ih, hk, hne]

theorem bumpPair_keys_nodup (k : List Char) (m : List XYPair)
    (h : (m.map XYPair.x).Nodup) : ((bumpPair k m).map XYPair.x).Nodup := by
  rw [bumpPair_keys]
  by_cases hk : k ∈ m.map XYPair.x
  · simpa [hk] using h
  · simp only [if_neg hk]
    refine List.Nodup.append h (List.nodup_singleton _) ?_
    intro a ha hb
    simp only [List.mem_singleton] at hb
    exact hk (hb ▸ ha)

theorem bumpPair_y_ge_one (k : List Char) (m : List XYPair)
    (h : ∀ p ∈ m, 1 ≤ p.y) : ∀ p ∈ bumpPair k m, 1 ≤ p.y := by
  induction m with
  | nil =>
    intro p hp
    simp [bumpPair] at hp
    rw [hp]
  | cons q rest ih =>
    intro p hp
    by_cases hq : q.x = k
    · simp only [bumpPair, if_pos hq] at hp
      rcases List.mem_cons.mp hp with h1 | h1
      · have := h q (by simp)
        rw [h1]
        simpa using by linarith
      · exact h p (List.mem_cons_of_mem _ h1)
    · simp only [bumpPair, if_neg hq] at hp
      rcases List.mem_cons.mp hp with h1 | h1
      · rw [h1]; exact h q (by simp)
      · exact ih (fun r hr => h r (List.mem_cons_of_mem _ hr)) p h1

theorem foldl_bump_keys_nodup (ps : List (List Char)) :
    ∀ m : List XYPair, (m.map XYPair.x).Nodup →
      (((ps.foldl (fun acc k => bumpPair k acc) m)).map XYPair.x).Nodup := by
  induction ps with
  | nil => intro m h; simpa using h
  | cons k rest ih =>
    intro m h
    exact ih (bumpPair k m) (bumpPair_keys_nodup k m h)

theorem foldl_bump_y_ge_one (ps : List (List Char)) :
    ∀ m : List XYPair, (∀ p ∈ m, 1 ≤ p.y) →
      ∀ p ∈ ps.foldl (fun acc k => bumpPair k acc) m, 1 ≤ p.y := by
  induction ps with
  | nil => intro m h; simpa using h
  | cons k rest ih =>
    intro m h
    exact ih (bumpPair k m) (bumpPair_y_ge_one k m h)

/-- C7: the matrix produced by `train` satisfies the frequency-table
invariant — bigram keys are pairwise distinct, every count is at least 1,
and the entries are sorted in descending order of count. -/
theorem train_matrix_invariants (nfd : Char → List Char) (corpus : List Char)
    (goodLines badLines : Lines) :
    ((train nfd corpus goodLines badLines).matrix.map XYPair.x).Nodup ∧
    (∀ p ∈ (train nfd corpus goodLines badLines).matrix, 1 ≤ p.y) ∧
    (train nfd corpus goodLines badLines).matrix.Pairwise
      (fun a b => b.y ≤ a.y) := by
  have hm : (train nfd corpus goodLines badLines).matrix =
      buildMatrix (jsToLower (sanitizeText nfd corpus)) := rfl
  rw [hm]
  unfold buildMatrix
  set base := (extractPairs (jsToLower (sanitizeText nfd corpus))).foldl
    (fun acc k => bumpPair k acc) [] with hbase
  have hperm := List.mergeSort_perm base byCountDesc
  refine ⟨?_, ?_, ?_⟩
  · exact (hperm.map XYPair.x).nodup_iff.mpr
      (foldl_bump_keys_nodup _ [] (by simp))
  · intro p hp
    exact foldl_bump_y_ge_one _ [] (by simp) p (hperm.mem_iff.mp hp)
  · have hs := @List.sorted_mergeSort XYPair byCountDesc
      (fun a b c hab hbc => by
        simp only [byCountDesc, decide_eq_true_eq] at hab hbc ⊢
        exact le_trans hbc hab)
      (fun a b => by
        simp only [byCountDesc, Bool.or_eq_true, decide_eq_true_eq]
        exact (le_total b.y a.y))
      base
    exact hs.imp (fun h => by
      simpa [byCountDesc] using h)

theorem JNum.add_nan_left (b : JNum) : JNum.add .nan b = .nan := by
  cases b <;> rfl

theorem JNum.add_nan_right (a : JNum) : JNum.add a .nan = .nan := by
  cases a <;> rfl

theorem JNum.min2_nan_left (b : JNum) : JNum.min2 .nan b = .nan := by
  cases b <;> rfl

theorem JNum.min2_nan_right (a : JNum) : JNum.min2 a .nan = .nan := by
  cases a <;> rfl

theorem JNum.max2_nan_left (b : JNum) : JNum.max2 .nan b = .nan := by
  cases b <;> rfl

theorem JNum.max2_nan_right (a : JNum) : JNum.max2 a .nan = .nan := by
  cases a <;> rfl

/-- A NaN-absorbing binary operation folds any list containing NaN to NaN. -/
theorem foldl_absorb_nan (f : JNum → JNum → JNum)
    (h1 : ∀ a, f a .nan = .nan) (h2 : ∀ b, f .nan b = .nan) :
    ∀ (l : List JNum) (acc : JNum), .nan ∈ l → l.foldl f acc = .nan := by
  have hstay : ∀ l : List JNum, l.foldl f .nan = .nan := by
    intro l
    induction l with
    | nil => rfl
    | cons c rest ih => rw [List.foldl_cons, h2 c]; exact ih
  intro l
  induction l with
  | nil => intro acc h; simp at h
  | cons c rest ih =>
    intro acc hmem
    rcases List.mem_cons.mp hmem with h | h
    · rw [List.foldl_cons, ← h, h1 acc]
      exact hstay rest
    · rw [List.foldl_cons]
      exact ih _ h

/-- C10: if any line of a reference set sanitizes (after trimming) to fewer
than two characters, its score is `NaN` and the NaN propagates through
`Math.min`, `Math.max` and the mean, so all three baseline statistics are
`NaN`; a model whose good (or bad) baseline was computed from such a set
then has a `NaN` default threshold. -/
theorem scoreLines_nan_of_short_line (nfd : Char → List Char)
    (lines : List (List Char)) (matrix : List XYPair)
    (h : ∃ l ∈ lines, (sanitizeText nfd (jsTrim l)).length < 2) :
    scoreLines nfd lines matrix = ⟨.nan, .nan, .nan⟩ ∧
    (∀ (mat : List XYPair) (bad : BaselineStats),
        calculateThreshold ⟨mat, ⟨scoreLines nfd lines matrix, bad⟩⟩ = .nan) ∧
    (∀ (mat : List XYPair) (good : BaselineStats),
        calculateThreshold ⟨mat, ⟨good, scoreLines nfd lines matrix⟩⟩ = .nan) := by
  obtain ⟨l0, hl0, hshort⟩ := h
  have hnan : assignScore nfd (jsTrim l0) matrix true = .nan :=
    (short_text_score_nan nfd (jsTrim l0) hshort).1 matrix true
  have hmem : JNum.nan ∈ lines.map fun line => assignScore nfd (jsTrim line) matrix true := by
    rw [← hnan]
    exact List.mem_map_of_mem _ hl0
  have hmin := foldl_absorb_nan JNum.min2 JNum.min2_nan_right JNum.min2_nan_left
    (lines.map fun line => assignScore nfd (jsTrim line) matrix true) .posInf hmem
  have hmax := foldl_absorb_nan JNum.max2 JNum.max2_nan_right JNum.max2_nan_left
    (lines.map fun line => assignScore nfd (jsTrim line) matrix true) .negInf hmem
  have hsum := foldl_absorb_nan JNum.add JNum.add_nan_right JNum.add_nan_left
    (lines.map fun line => assignScore nfd (jsTrim line) matrix true) (.fin 0) hmem
  have hsl : scoreLines nfd lines matrix = ⟨.nan, .nan, .nan⟩ := by
    simp only [scoreLines, jsMinList, jsMaxList, jsSumList]
    rw [hmin, hmax, hsum]
    rfl
  refine ⟨hsl, ?_, ?_⟩
  · intro mat bad
    rw [hsl]
    show ((JNum.nan).add bad.max).divNat 2 = .nan
    rw [JNum.add_nan_left]
    rfl
  · intro mat good
    rw [hsl]
    show (good.min.add .nan).divNat 2 = .nan
    rw [JNum.add_nan_right]
    rfl

/-- Witness for C10: a line set consisting of one empty line (as produced by
a trailing newline in a newline-delimited string) gets all-NaN baseline
statistics, and a model built on it a NaN default threshold. -/
theorem scoreLines_nan_of_short_line_witness :
    (∃ l ∈ [([] : List Char)], (sanitizeText nfdInert (jsTrim l)).length < 2) ∧
    scoreLines nfdInert [[]] [] = ⟨.nan, .nan, .nan⟩ ∧
    calculateThreshold ⟨[], ⟨scoreLines nfdInert [[]] [], ⟨.fin 0, .fin 0, .fin 0⟩⟩⟩ = .nan ∧
    calculateThreshold ⟨[], ⟨⟨.fin 0, .fin 0, .fin 0⟩, scoreLines nfdInert [[]] []⟩⟩ = .nan := by
  have h : ∃ l ∈ [([] : List Char)], (sanitizeText nfdInert (jsTrim l)).length < 2 :=
    ⟨[], by simp, by decide⟩
  exact ⟨h, (scoreLines_nan_of_short_line nfdInert [[]] [] h).1,
    (scoreLines_nan_of_short_line nfdInert [[]] [] h).2.1 [] ⟨.fin 0, .fin 0, .fin 0⟩,
    (scoreLines_nan_of_short_line nfdInert [[]] [] h).2.2 [] ⟨.fin 0, .fin 0, .fin 0⟩⟩

/-! ### Untrusted values and the model validator

`isValidModel` takes an arbitrary externally-loaded value, so it is
embedded over a dynamic value type.  Property access is the partial
operation of JavaScript: reading a property of `null` or `undefined`
throws (`Except.error`), reading a missing property of anything else
yields `undefined`. -/

/-- A dynamic JavaScript value, to the depth the validator inspects. -/
inductive JValue where
  | null : JValue
  | jsUndefined : JValue
  | bool : Bool → JValue
  | num : JNum → JValue
  | str : List Char → JValue
  | arr : List JValue → JValue
  | obj : List (List Char × JValue) → JValue

/-- The result of the `typeof` operator (`typeof null` is `'object'`, as is
`typeof` of any array). -/
inductive JType where
  | object : JType
  | number : JType
  | string : JType
  | boolean : JType
  | jsUndefined : JType
deriving DecidableEq

/-- `typeof v`. -/
def jTypeof : JValue → JType
  | .null => .object
  | .jsUndefined => .jsUndefined
  | .bool _ => .boolean
  | .num _ => .number
  | .str _ => .string
  | .arr _ => .object
  | .obj _ => .object

/-- `Array.isArray(v)`. -/
def isArray : JValue → Bool
  | .arr _ => true
  | _ => false

/-- JavaScript truthiness. -/
def isTruthy : JValue → Bool
  | .null => false
  | .jsUndefined => false
  | .bool b => b
  | .num .nan => false
  | .num (.fin q) => decide (q ≠ 0)
  | .num _ => true
  | .str s => decide (s ≠ [])
  | .arr _ => true
  | .obj _ => true

/-- Property read `v[k]`: throws on `null`/`undefined`, yields the field of
an object (or `undefined` when absent), and `undefined` on every other
value. -/
def getField : JValue → List Char → Except Unit JValue
  | .null, _ => .error ()
  | .jsUndefined, _ => .error ()
  | .obj fields, k => .ok ((fields.lookup k).getD .jsUndefined)
  | _, _ => .ok .jsUndefined

/-- `.length` of a string value (only consulted after a `typeof ... ===
'string'` guard). -/
def jsLength : JValue → Nat
  | .str s => s.length
  | _ => 0

def keyX : List Char := ['x']

def keyY : List Char := ['y']

def keyMatrix : List Char := "matrix".toList

def keyBaseline : List Char := "baseline".toList

def keyGood : List Char := "good".toList

def keyBad : List Char := "bad".toList

def keyMin : List Char := "min".toList

def keyMax : List Char := "max".toList

def keyAvg : List Char := "avg".toList

/-- The body of the `matrix.some((m) => ...)` callback: true when the entry
is malformed (this is where `m.x` is read, after a `typeof m !== 'object'`
guard that `null` passes, `typeof null` being `'object'`). -/
def matrixEntryBad (m : JValue) : Except Unit Bool := do
  if jTypeof m ≠ .object ∨ isArray m then return true
  let mx ← getField m keyX
  if jTypeof mx ≠ .string ∨ jsLength mx ≠ 2 then return true
  let my ← getField m keyY
  if jTypeof my ≠ .number then return true
  return false

/-- `matrix.some(...)` over the entries: stop at the first malformed entry
(`errorState` is only ever set to true). -/
def isValidMatrixEntries : List JValue → Except Unit Bool
  | [] => .ok false
  | m :: rest => do
    let bad ← matrixEntryBad m
    if bad then return true else isValidMatrixEntries rest

/-- `isValidMatrix`: false for non-arrays, else no entry is malformed. -/
def isValidMatrix (matrix : JValue) : Except Unit Bool :=
  if ¬ isTruthy matrix ∨ ¬ isArray matrix then .ok false
  else
    match matrix with
    | .arr entries => do
      let bad ← isValidMatrixEntries entries
      pure !bad
    | _ => .ok false

/-- `isValidModel`: structural gate over an untrusted value, following the
source's check order. -/
def isValidModel (model : JValue) : Except Unit Bool := do
  if ¬ isTruthy model ∨ jTypeof model ≠ .object ∨ isArray model then return false
  let mtx ← getField model keyMatrix
  let mOk ← isValidMatrix mtx
  if ¬ mOk then return false
  let baseline ← getField model keyBaseline
  if ¬ isTruthy baseline ∨ jTypeof baseline ≠ .object ∨ isArray baseline then
    return false
  let good ← getField baseline keyGood
  if ¬ isTruthy good ∨ jTypeof good ≠ .object ∨ isArray good then return false
  let gmin ← getField good keyMin
  let gmax ← getField good keyMax
  let gavg ← getField good keyAvg
  if jTypeof gmin ≠ .number ∨ jTypeof gmax ≠ .number ∨ jTypeof gavg ≠ .number then
    return false
  let bad ← getField baseline keyBad
  if ¬ isTruthy bad ∨ jTypeof bad ≠ .object ∨ isArray bad then return false
  let bmin ← getField bad keyMin
  let bmax ← getField bad keyMax
  let bavg ← getField bad keyAvg
  if jTypeof bmin ≠ .number ∨ jTypeof bmax ≠ .number ∨ jTypeof bavg ≠ .number then
    return false
  return true

/-- A structurally well-formed model value. -/
def wellFormedModelValue : JValue :=
  .obj
    [(keyMatrix, .arr [.obj [(keyX, .str ['t', 'h']), (keyY, .num (.fin 2))]]),
     (keyBaseline, .obj
       [(keyGood, .obj
          [(keyMin, .num (.fin 1)), (keyMax, .num (.fin 3)),
           (keyAvg, .num (.fin 2))]),
        (keyBad, .obj
          [(keyMin, .num (.fin 0)), (keyMax, .num (.fin 1)),
           (keyAvg, .num (.fin (1 / 2)))])])]

/-- C4 (code evaluated at the failing input): `isValidModel` is a boolean
gate on a well-formed model and on a plainly malformed value, but on a
model whose matrix contains a `null` entry it throws — `typeof null` is
`'object'`, so the entry passes the object guard and the read of `m.x`
raises a TypeError instead of returning false. -/
theorem isValidModel_throws_on_null_matrix_entry :
    isValidModel wellFormedModelValue = .ok true ∧
    isValidModel (.num (.fin 5)) = .ok false ∧
    isValidModel (.obj [(keyMatrix, .arr [.null])]) = .error () ∧
    isValidMatrix (.arr [.null]) = .error () := by
  refine ⟨?_, ?_, ?_, ?_⟩ <;> rfl

/-- C3 (counterexample): the sanitizer is not idempotent.  In `"a Ω b"` the
omega (NFD-inert, outside ASCII) is dropped by Latin normalization *after*
whitespace collapsing, leaving the double space `"a  b"`, which a second
sanitization pass collapses to `"a b"`. -/
theorem sanitizeText_not_idempotent :
    sanitizeText nfdInert (sanitizeText nfdInert ['a', ' ', 'Ω', ' ', 'b']) ≠
      sanitizeText nfdInert ['a', ' ', 'Ω', ' ', 'b'] ∧
    sanitizeText nfdInert ['a', ' ', 'Ω', ' ', 'b'] = ['a', ' ', ' ', 'b'] ∧
    sanitizeText nfdInert ['a', ' ', ' ', 'b'] = ['a', ' ', 'b'] := by
  refine ⟨by decide, by decide, by decide⟩

theorem replaceCRLF_mem : ∀ (l : List Char) (c : Char),
    c ∈ replaceCRLF l → c = ' ' ∨ c ∈ l
  | [], c => by intro h; simp [replaceCRLF] at h
  | [d], c => by
    intro h
    simp only [replaceCRLF] at h
    exact Or.inr h
  | c1 :: c2 :: rest, c => by
    intro h
    by_cases hc : c1 = '\r' ∧ c2 = '\n'
    · rw [show replaceCRLF (c1 :: c2 :: rest) = ' ' :: replaceCRLF rest from by
        simp [replaceCRLF, hc]] at h
      rcases List.mem_cons.mp h with h1 | h1
      · exact Or.inl h1
      · rcases replaceCRLF_mem rest c h1 with h2 | h2
        · exact Or.inl h2
        · exact Or.inr (by simp [h2])
    · rw [show replaceCRLF (c1 :: c2 :: rest) = c1 :: replaceCRLF (c2 :: rest) from by
        simp [replaceCRLF, hc]] at h
      rcases List.mem_cons.mp h with h1 | h1
      · exact Or.inr (by simp [h1])
      · rcases replaceCRLF_mem (c2 :: rest) c h1 with h2 | h2
        · exact Or.inl h2
        · exact Or.inr (List.mem_cons_of_mem _ h2)

theorem replaceCRLF_id : ∀ (l : List Char), '\r' ∉ l → replaceCRLF l = l
  | [] => fun _ => rfl
  | [_] => fun _ => rfl
  | c1 :: c2 :: rest => fun h => by
    have h1 : c1 ≠ '\r' := fun hc => h (by simp [hc])
    rw [show replaceCRLF (c1 :: c2 :: rest) = c1 :: replaceCRLF (c2 :: rest) from by
      simp only [replaceCRLF]
      rw [if_neg fun hc : c1 = '\r' ∧ c2 = '\n' => h1 hc.1]]
    rw [replaceCRLF_id (c2 :: rest) fun hm => h (List.mem_cons_of_mem _ hm)]

theorem map_id_of_fixed (f : Char → Char) (l : List Char)
    (h : ∀ c ∈ l, f c = c) : l.map f = l := by
  induction l with
  | nil => rfl
  | cons c rest ih =>
    rw [List.map_cons, h c (by simp),
      ih fun d hd => h d (List.mem_cons_of_mem _ hd)]

theorem mem_map_ite_space (p : Char → Prop) [DecidablePred p] (l : List Char)
    (c : Char) (h : c ∈ l.map fun d => if p d then ' ' else d) :
    c = ' ' ∨ c ∈ l := by
  rcases List.mem_map.mp h with ⟨a, ha, hc⟩
  by_cases hp : p a
  · left; rw [← hc, if_pos hp]
  · right; rw [← hc, if_neg hp]; exact ha

theorem map_ite_space_not_hit (p : Char → Prop) [DecidablePred p]
    (hsp : ¬ p ' ') (l : List Char) (c : Char)
    (h : c ∈ l.map fun d => if p d then ' ' else d) : ¬ p c := by
  rcases List.mem_map.mp h with ⟨a, _, hc⟩
  by_cases hp : p a
  · rw [← hc, if_pos hp]; exact hsp
  · rw [← hc, if_neg hp]; exact hp

theorem collapseWSAux_ws_mem (l : List Char) : ∀ (b : Bool) (c : Char),
    c ∈ collapseWSAux b l → isJsWS c = true → c = ' ' := by
  induction l with
  | nil => intro b c h _; simp [collapseWSAux] at h
  | cons d rest ih =>
    intro b c h hws
    by_cases hd : isJsWS d = true
    · cases b with
      | true =>
        simp only [collapseWSAux, hd, if_true] at h
        exact ih true c h hws
      | false =>
        simp only [collapseWSAux, hd, if_true, if_false] at h
        rcases List.mem_cons.mp h with h1 | h1
        · exact h1
        · exact ih true c h1 hws
    · have hd' : isJsWS d = false := by simpa using hd
      simp only [collapseWSAux, hd', if_false] at h
      rcases List.mem_cons.mp h with h1 | h1
      · exact absurd (h1 ▸ hws) (by simp [hd'])
      · exact ih false c h1 hws

theorem collapseWSAux_mem (l : List Char) : ∀ (b : Bool) (c : Char),
    c ∈ collapseWSAux b l → c = ' ' ∨ c ∈ l := by
  induction l with
  | nil => intro b c h; simp [collapseWSAux] at h
  | cons d rest ih =>
    intro b c h
    by_cases hd : isJsWS d = true
    · cases b with
      | true =>
        simp only [collapseWSAux, hd, if_true] at h
        rcases ih true c h with h1 | h1
        · exact Or.inl h1
        · exact Or.inr (List.mem_cons_of_mem _ h1)
      | false =>
        simp only [collapseWSAux, hd, if_true, if_false] at h
        rcases List.mem_cons.mp h with h1 | h1
        · exact Or.inl h1
        · rcases ih true c h1 with h2 | h2
          · exact Or.inl h2
          · exact Or.inr (List.mem_cons_of_mem _ h2)
    · have hd' : isJsWS d = false := by simpa using hd
      simp only [collapseWSAux, hd', if_false] at h
      rcases List.mem_cons.mp h with h1 | h1
      · exact Or.inr (by simp [h1])
      · rcases ih false c h1 with h2 | h2
        · exact Or.inl h2
        · exact Or.inr (List.mem_cons_of_mem _ h2)

theorem collapseWSAux_true_head (l : List Char) : ∀ c : Char,
    (collapseWSAux true l).head? = some c → isJsWS c = false := by
  induction l with
  | nil => intro c h; simp [collapseWSAux] at h
  | cons d rest ih =>
    intro c h
    by_cases hd : isJsWS d = true
    · simp only [collapseWSAux, hd, if_true] at h
      exact ih c h
    · have hd' : isJsWS d = false := by simpa using hd
      simp only [collapseWSAux, hd', if_false, List.head?_cons] at h
      rw [← Option.some_inj.mp h]
      exact hd'

theorem collapseWSAux_chain (l : List Char) : ∀ b : Bool,
    (collapseWSAux b l).Chain'
      (fun a d => ¬(isJsWS a = true ∧ isJsWS d = true)) := by
  induction l with
  | nil => intro b; simp [collapseWSAux]
  | cons d rest ih =>
    intro b
    by_cases hd : isJsWS d = true
    · cases b with
      | true =>
        simpa only [collapseWSAux, hd, if_true] using ih true
      | false =>
        simp only [collapseWSAux, hd, if_true, if_false]
        refine List.chain'_cons'.mpr ⟨?_, ih true⟩
        intro y hy
        have := collapseWSAux_true_head rest y hy
        simp [this]
    · have hd' : isJsWS d = false := by simpa using hd
      simp only [collapseWSAux, hd', if_false]
      refine List.chain'_cons'.mpr ⟨?_, ih false⟩
      intro y _
      simp [hd']

theorem collapseWSAux_true_eq_false (l : List Char)
    (h : ∀ c, l.head? = some c → isJsWS c = false) :
    collapseWSAux true l = collapseWSAux false l := by
  cases l with
  | nil => rfl
  | cons e rest =>
    have he := h e rfl
    simp [collapseWSAux, he]

theorem collapseWSAux_id (l : List Char) :
    (∀ c ∈ l, isJsWS c = true → c = ' ') →
    l.Chain' (fun a d => ¬(isJsWS a = true ∧ isJsWS d = true)) →
    collapseWSAux false l = l := by
  induction l with
  | nil => intro _ _; rfl
  | cons d rest ih =>
    intro hws hchain
    have hrest := ih (fun c hc => hws c (List.mem_cons_of_mem _ hc)) hchain.tail
    by_cases hd : isJsWS d = true
    · have hd' : d = ' ' := hws d (by simp) hd
      simp only [collapseWSAux, hd, if_true, if_false]
      rw [collapseWSAux_true_eq_false rest ?hhead, hrest, hd']
      case _ => rfl
      case hhead =>
        intro c hc
        cases rest with
        | nil => simp at hc
        | cons e rest2 =>
          have hde := List.chain'_cons.mp hchain
          simp only [List.head?_cons] at hc
          rw [← Option.some_inj.mp hc]
          by_cases he : isJsWS e = true
          · exact absurd ⟨hd, he⟩ hde.1
          · simpa using he
    · have hd' : isJsWS d = false := by simpa using hd
      simp only [collapseWSAux, hd', if_false]
      rw [hrest]
      simp

theorem flatten_map_singleton (l : List Char) :
    (l.map fun c => [c]).flatten = l := by
  induction l with
  | nil => rfl
  | cons c rest ih => simp [List.flatten, ih]

theorem convertToLatinEquivalent_id (nfd : Char → List Char)
    (hnfd : NfdAsciiFixed nfd) (l : List Char)
    (hl : ∀ c ∈ l, c.toNat ≤ 127) :
    convertToLatinEquivalent nfd l = l := by
  simp only [convertToLatinEquivalent]
  rw [List.map_congr_left fun c hc => hnfd c (hl c hc), flatten_map_singleton]
  have hinner :
      (l.filter fun c => !(decide (0x300 ≤ c.toNat) && decide (c.toNat ≤ 0x36F)))
        = l :=
    List.filter_eq_self.mpr fun c hc => by
      have h := hl c hc
      simp
      omega
  rw [hinner]
  exact List.filter_eq_self.mpr fun c hc => by
    have h := hl c hc
    simp [h]

theorem replaceSentenceTerminators_no_term (l : List Char) (c : Char)
    (h : c ∈ replaceSentenceTerminators l) :
    ¬(c = '!' ∨ c = '?' ∨ c = '.' ∨ c = ';') :=
  map_ite_space_not_hit _ (by decide) l c h

/-- C3 (amended): the sanitizer is idempotent on inputs all of whose
characters are ASCII (for any ASCII-fixing decomposition map) — in general
a non-ASCII character dropped by Latin normalization can leave a residual
double space that only a second pass collapses. -/
theorem sanitizeText_idempotent_ascii (nfd : Char → List Char)
    (hnfd : NfdAsciiFixed nfd) (s : List Char)
    (hs : ∀ c ∈ s, c.toNat ≤ 127) :
    sanitizeText nfd (sanitizeText nfd s) = sanitizeText nfd s := by
  have hspace : (' ' : Char).toNat ≤ 127 := by decide
  set s4 := replaceSentenceTerminators (replaceTab (replaceLF (replaceCRLF s)))
    with hs4
  set t := collapseWS s4 with ht
  have a1 : ∀ c ∈ replaceCRLF s, c.toNat ≤ 127 := fun c hc =>
    (replaceCRLF_mem s c hc).elim (fun h => h ▸ hspace) (hs c)
  have a2 : ∀ c ∈ replaceLF (replaceCRLF s), c.toNat ≤ 127 := fun c hc =>
    (mem_map_ite_space (fun d => d = '\n') _ c hc).elim
      (fun h => h ▸ hspace) (a1 c)
  have a3 : ∀ c ∈ replaceTab (replaceLF (replaceCRLF s)), c.toNat ≤ 127 :=
    fun c hc =>
    (mem_map_ite_space (fun d => d = '\t') _ c hc).elim
      (fun h => h ▸ hspace) (a2 c)
  have a4 : ∀ c ∈ s4, c.toNat ≤ 127 := fun c hc => by
    rw [hs4] at hc
    exact (mem_map_ite_space (fun d => d = '!' ∨ d = '?' ∨ d = '.' ∨ d = ';')
      _ c hc).elim (fun h => h ▸ hspace) (a3 c)
  have hws_t : ∀ c ∈ t, isJsWS c = true → c = ' ' := fun c hc =>
    collapseWSAux_ws_mem s4 false c (by rw [ht] at hc; exact hc)
  have hchain_t : t.Chain' (fun a d => ¬(isJsWS a = true ∧ isJsWS d = true)) := by
    rw [ht]
    exact collapseWSAux_chain s4 false
  have hmem_t : ∀ c ∈ t, c = ' ' ∨ c ∈ s4 := fun c hc =>
    collapseWSAux_mem s4 false c (by rw [ht] at hc; exact hc)
  have ascii_t : ∀ c ∈ t, c.toNat ≤ 127 := fun c hc =>
    (hmem_t c hc).elim (fun h => h ▸ hspace) (a4 c)
  have hfirst : sanitizeText nfd s = t :=
    convertToLatinEquivalent_id nfd hnfd t ascii_t
  rw [hfirst]
  have h1 : replaceCRLF t = t := replaceCRLF_id t fun hr => by
    have := hws_t '\r' hr (by decide)
    exact absurd this (by decide)
  have h2 : replaceLF t = t := map_id_of_fixed _ t fun c hc => by
    by_cases hcn : c = '\n'
    · subst hcn
      have := hws_t '\n' hc (by decide)
      exact absurd this (by decide)
    · exact if_neg hcn
  have h3 : replaceTab (replaceLF t) = t := by
    rw [h2]
    refine map_id_of_fixed _ t fun c hc => ?_
    by_cases hcn : c = '\t'
    · subst hcn
      have := hws_t '\t' hc (by decide)
      exact absurd this (by decide)
    · exact if_neg hcn
  have h4 : replaceSentenceTerminators t = t :=
    map_id_of_fixed _ t fun c hc => by
      have hnt : ¬(c = '!' ∨ c = '?' ∨ c = '.' ∨ c = ';') := by
        rcases hmem_t c hc with h | h
        · subst h; decide
        · rw [hs4] at h
          exact replaceSentenceTerminators_no_term _ c h
      exact if_neg hnt
  have h5 : collapseWS t = t := collapseWSAux_id t hws_t hchain_t
  show convertToLatinEquivalent nfd
    (collapseWS (replaceSentenceTerminators (replaceTab (replaceLF
      (replaceCRLF t))))) = t
  rw [h1, h3, h4, h5]
  exact convertToLatinEquivalent_id nfd hnfd t ascii_t

/-- Witness for C3 (amended): idempotence at the concrete ASCII string
`"Hi there"` under the inert decomposition map. -/
theorem sanitizeText_idempotent_ascii_witness :
    NfdAsciiFixed nfdInert ∧
    (∀ c ∈ ['H', 'i', ' ', 't', 'h', 'e', 'r', 'e'], c.toNat ≤ 127) ∧
    sanitizeText nfdInert
        (sanitizeText nfdInert ['H', 'i', ' ', 't', 'h', 'e', 'r', 'e']) =
      sanitizeText nfdInert ['H', 'i', ' ', 't', 'h', 'e', 'r', 'e'] :=
  ⟨fun c _ => rfl, by decide,
    sanitizeText_idempotent_ascii nfdInert (fun c _ => rfl)
      ['H', 'i', ' ', 't', 'h', 'e', 'r', 'e'] (by decide)⟩
